import Mathlib

/-!
Verification of the AV1 RTP packetizer (`libavformat/rtpenc_av1.c`, the
simplified one-OBU-per-packet variant whose `obu_send` / `ff_rtp_send_av1`
are the authoritative code) and the matching reassembler
(`libavformat/rtpdec_av1.c`, `av1_handle_packet`).

Bytes are modelled as natural numbers (< 256 in every reachable state); the
C `uint8_t` arithmetic on the aggregation-header byte uses only `|` and `&`
on values < 256, so plain `Nat` bitwise operations agree with the machine
semantics.  Packets are byte lists whose head is the aggregation header.
-/

namespace Av1Rtp

/-- `AGGRE_HEADER_SIZE` -/
def AGGRE_HEADER_SIZE : Nat := 1
/-- `AV1_RTP_FLAG_Z` -/
def AV1_RTP_FLAG_Z : Nat := 0x80
/-- `AV1_RTP_FLAG_Y` -/
def AV1_RTP_FLAG_Y : Nat := 0x40
/-- `AV1_RTP_FLAG_N` of the encoder variant (`rtpenc_av1.c`, second copy). -/
def AV1_RTP_FLAG_N : Nat := 0x08
/-- `AV1_RTP_FLAG_W1` -/
def AV1_RTP_FLAG_W1 : Nat := 0x10
/-- `AV1_RTP_FLAG_NONE` -/
def AV1_RTP_FLAG_NONE : Nat := 0
/-- `AV1_OBU_TEMPORAL_DELIMITER` (libavcodec/av1.h). -/
def AV1_OBU_TEMPORAL_DELIMITER : Nat := 2

/-- `kMaximumLeb128Size` -/
def kMaximumLeb128Size : Nat := 8
/-- `kMaximumLeb128Value` = `0xFFFFFFFFFFFFFF` = 2^56 - 1 -/
def kMaximumLeb128Value : Nat := 0xFFFFFFFFFFFFFF

/-- `eb_aom_uleb_size_in_bytes`: the do-while loop counts one byte per
7-bit group, at least one. -/
def eb_aom_uleb_size_in_bytes (value : Nat) : Nat :=
  if value >>> 7 = 0 then 1 else 1 + eb_aom_uleb_size_in_bytes (value >>> 7)
termination_by value
decreasing_by
  have h1 : value ≠ 0 := by
    intro h; subst h; simp at *
  have : value >>> 7 < value := by
    rw [Nat.shiftRight_eq_div_pow]
    exact Nat.div_lt_self (Nat.pos_of_ne_zero h1) (by norm_num)
  exact this

/-- The body of `eb_aom_uleb_encode`'s for-loop, run `n` times: emit the low
7 bits, shift right by 7, and set the continuation bit when the shifted
value is non-zero. -/
def uleb_encode_loop (value : Nat) : Nat → List Nat
  | 0 => []
  | n + 1 =>
      ((value &&& 0x7f) ||| (if value >>> 7 ≠ 0 then 0x80 else 0)) ::
        uleb_encode_loop (value >>> 7) n

/-- `eb_aom_uleb_encode` with non-null output pointers: `none` models the
`-1` error return, `some bytes` the bytes written through `coded_value`
(with `*coded_size = bytes.length`). -/
def eb_aom_uleb_encode (value : Nat) (available : Nat) : Option (List Nat) :=
  let leb_size := eb_aom_uleb_size_in_bytes value
  if value > kMaximumLeb128Value ∨ leb_size > kMaximumLeb128Size ∨
      leb_size > available then
    none
  else
    some (uleb_encode_loop value leb_size)

/-- `update_aggregate_hdr` of the simplified encoder variant: optionally
clear `s->buf[0]`, then OR in `flag`. -/
def update_aggregate_hdr (hdr : Nat) (flag : Nat) (clear : Bool) : Nat :=
  (if clear then 0 else hdr) ||| flag

/-- One RTP packet as handed to `ff_rtp_send_data`: the full byte sequence
(aggregation header first) and the RTP marker (`last`) argument. -/
structure Packet where
  bytes : List Nat
  marker : Bool
deriving Repr, DecidableEq

/-- One iteration of the `while (size + AGGRE_HEADER_SIZE >
s->max_payload_size)` loop body of `obu_send`: emit one packet of `mps`
bytes — the header byte followed by the next `mps - AGGRE_HEADER_SIZE`
input bytes — and advance the input by the same amount. -/
def frag_step (mps : Nat) (hdr : Nat) (bytes : List Nat) :
    List Nat × List Nat :=
  (hdr :: bytes.take (mps - AGGRE_HEADER_SIZE),
   bytes.drop (mps - AGGRE_HEADER_SIZE))

/-- The `while (size + AGGRE_HEADER_SIZE > s->max_payload_size)` loop of
`obu_send`, iterating `frag_step`: the first iteration's header is the
`hdr` argument (the caller passes `update_aggregate_hdr 0 (Y|||W1) true =
0x50`), later iterations OR `Z` into the previous header
(`update_aggregate_hdr hdr Z false`).  Returns the emitted packet byte
sequences and the remaining input.

The C loop does not terminate when `mps < 2` (the body then removes no
input); the `2 ≤ mps` conjunct below is only a termination guard and the
model is never used at `mps < 2` (see the configuration-error theorem).
The recursion is driven by a fuel argument so that the definition reduces
inside the kernel; each iteration consumes at least one input byte when
`2 ≤ mps`, so fuel `bytes.length` is always enough (`obu_frag_loop_fuel_irrel`
below) and `obu_frag_loop` satisfies the loop's defining equation
(`obu_frag_loop_eq`). -/
def obu_frag_loop_fuel (mps : Nat) :
    Nat → Nat → List Nat → List (List Nat) × List Nat
  | 0, _, bytes => ([], bytes)
  | fuel + 1, hdr, bytes =>
    if mps < bytes.length + AGGRE_HEADER_SIZE ∧ 2 ≤ mps then
      ((frag_step mps hdr bytes).1 ::
         (obu_frag_loop_fuel mps fuel
           (update_aggregate_hdr hdr AV1_RTP_FLAG_Z false)
           (frag_step mps hdr bytes).2).1,
       (obu_frag_loop_fuel mps fuel
           (update_aggregate_hdr hdr AV1_RTP_FLAG_Z false)
           (frag_step mps hdr bytes).2).2)
    else
      ([], bytes)

def obu_frag_loop (mps : Nat) (hdr : Nat) (bytes : List Nat) :
    List (List Nat) × List Nat :=
  obu_frag_loop_fuel mps bytes.length hdr bytes

/-- `obu_send` of the simplified encoder variant.  State threaded through is
the global `firstPacketReceived` latch (`fpr`).  Returns the packets passed
to `ff_rtp_send_data` in order, and the new latch value. -/
def obu_send (mps : Nat) (fpr : Bool) (bytes : List Nat) (last : Bool) :
    List Packet × Bool :=
  if bytes.length = 0 then
    ([], fpr)
  else if bytes.length + AGGRE_HEADER_SIZE ≤ mps then
    let hdr0 := update_aggregate_hdr 0 AV1_RTP_FLAG_NONE true
    let hdr := if fpr then hdr0 else update_aggregate_hdr hdr0 AV1_RTP_FLAG_N true
    ([⟨hdr :: bytes, last⟩], true)
  else
    let first_hdr := update_aggregate_hdr 0 (AV1_RTP_FLAG_Y ||| AV1_RTP_FLAG_W1) true
    let r := obu_frag_loop mps first_hdr bytes
    let final_hdr := update_aggregate_hdr 0 AV1_RTP_FLAG_Z true
    (r.1.map (fun b => ⟨b, false⟩) ++ [⟨final_hdr :: r.2, last⟩], fpr)

/-- One OBU as delivered by the external boundary parser
(`parse_obu_header`): its type tag and its full byte range (`len ≥ 1`
bytes: the parser always consumes at least the OBU header byte). -/
structure Obu where
  otype : Nat
  bytes : List Nat
deriving Repr, DecidableEq

/-- The `while (size > 0)` loop of `ff_rtp_send_av1`, on the OBU sequence
the external parser yields.  A temporal-delimiter OBU is skipped and the
next OBU is sent without re-checking its type, exactly as in the C loop.
When the delimiter is the final OBU the C code re-invokes the parser on an
empty buffer, whose failure leaves the subsequent behaviour undefined; the
model stops there (no packet is emitted by `obu_send` for `size <= 0`). -/
def send_loop (mps : Nat) : List Obu → Bool → List Packet × Bool
  | [], fpr => ([], fpr)
  | o :: rest, fpr =>
    if o.otype = AV1_OBU_TEMPORAL_DELIMITER then
      match rest with
      | [] => ([], fpr)
      | o2 :: rest2 =>
        let r1 := obu_send mps fpr o2.bytes rest2.isEmpty
        let r2 := send_loop mps rest2 r1.2
        (r1.1 ++ r2.1, r2.2)
    else
      let r1 := obu_send mps fpr o.bytes rest.isEmpty
      let r2 := send_loop mps rest r1.2
      (r1.1 ++ r2.1, r2.2)

/-- `ff_rtp_send_av1` of the simplified variant: walk the access unit's
OBUs and send each (the buffered-aggregation path is never fed by this
variant's `obu_send`, so the final `flush_buffered` sends nothing). -/
def ff_rtp_send_av1 (mps : Nat) (fpr : Bool) (au : List Obu) :
    List Packet × Bool :=
  send_loop mps au fpr

/-- A whole session: successive `ff_rtp_send_av1` calls threading the
process-global `firstPacketReceived` latch. -/
def send_session (mps : Nat) : List (List Obu) → Bool → List Packet × Bool
  | [], fpr => ([], fpr)
  | au :: rest, fpr =>
    let r1 := ff_rtp_send_av1 mps fpr au
    let r2 := send_session mps rest r1.2
    (r1.1 ++ r2.1, r2.2)

/-- Whether an emitted packet's aggregation header carries the encoder's
N flag (`0x08`). -/
def has_N (p : Packet) : Bool := p.bytes.headI &&& AV1_RTP_FLAG_N != 0

/-- Whether an emitted packet's aggregation header has Z or Y set, i.e. the
packet is part of a fragmented OBU (the fragmentation path emits only the
headers `0x50`, `0xD0` and `0x80`). -/
def is_frag_hdr (p : Packet) : Bool :=
  p.bytes.headI &&& (AV1_RTP_FLAG_Z ||| AV1_RTP_FLAG_Y) != 0

/-- Shape of the N flag across an emitted packet sequence `ps`, given the
`firstPacketReceived` latch value before (`fpr`) and after (`f'`) the
emission: when the latch was already set, no packet carries N and the
latch stays set; when it was unset, the sequence is a run of fragment
packets without N, optionally followed by a single N-carrying packet (the
unfragmented packet that sets the latch) and then packets without N. -/
def n_flag_shape (fpr : Bool) (ps : List Packet) (f' : Bool) : Prop :=
  (fpr = true → f' = true ∧ ∀ p ∈ ps, has_N p = false) ∧
  (fpr = false →
    ∃ pre post, ps = pre ++ post ∧
      (∀ p ∈ pre, is_frag_hdr p = true ∧ has_N p = false) ∧
      ((post = [] ∧ f' = false) ∨
        (∃ q rest, post = q :: rest ∧ has_N q = true ∧ f' = true ∧
          ∀ p ∈ rest, has_N p = false)))

/-! ## Reassembler (`rtpdec_av1.c`) -/

/-- Decoder-side `AV1_RTP_FLAG_N` (`rtpdec_av1.c` fixes it at `0x04`;
parsed into `first_packet` but never used afterwards). -/
def DEC_AV1_RTP_FLAG_N : Nat := 0x04

/-- Result of `av1_handle_packet`: `0` with a filled packet
(`complete`), `AVERROR(EAGAIN)` (`needMore`), or `AVERROR_INVALIDDATA`
(`malformed`).  Allocation failures are not modelled. -/
inductive ReasmResult where
  | complete (bytes : List Nat)
  | needMore
  | malformed
deriving Repr, DecidableEq

/-- `PayloadContext`: the dynamic buffer (`none` = NULL) and the recorded
timestamp of the access unit being assembled. -/
structure DecState where
  buf : Option (List Nat)
  timestamp : Nat
deriving Repr, DecidableEq

/-- Step (1) of `av1_handle_packet` (its first two statements): drop the
data of previous packets when an open buffer's timestamp differs from the
incoming packet's (`ffio_free_dyn_buf`). -/
def av1_discard_stale (st : DecState) (ts : Nat) : DecState :=
  if st.buf.isSome ∧ st.timestamp ≠ ts then { st with buf := none } else st

/-- `av1_handle_packet`.  Mirrors the C control flow: (1) discard an open
buffer whose timestamp differs from the packet's (`av1_discard_stale` —
this happens before the length check), (2) reject packets shorter than
header + 1 payload byte, (3) return an unfragmented packet
(Z = 0, Y = 0, W = 0) immediately, (4) otherwise open a buffer on a first
fragment (or drop the packet when no buffer is open), append the payload,
and finalize when the packet is a last fragment. -/
def av1_handle_packet (st : DecState) (ts : Nat) (pkt : List Nat) :
    DecState × ReasmResult :=
  let st1 := av1_discard_stale st ts
  if pkt.length < AGGRE_HEADER_SIZE + 1 then
    (st1, .malformed)
  else
    let hdr := pkt.headI
    let frag_Z := hdr &&& 0x80 ≠ 0
    let frag_Y := hdr &&& 0x40 ≠ 0
    let obu_ele_num := (hdr &&& 0x30) >>> 4
    let first_fragment := ¬frag_Z ∧ frag_Y
    let last_fragment := frag_Z ∧ ¬frag_Y
    let payload := pkt.tail
    if ¬frag_Z ∧ ¬frag_Y ∧ obu_ele_num = 0 then
      (st1, .complete payload)
    else
      let opened : Option DecState :=
        match st1.buf with
        | none => if first_fragment then some ⟨some [], ts⟩ else none
        | some _ => some st1
      match opened with
      | none => (st1, .needMore)
      | some st2 =>
        let b := st2.buf.getD [] ++ payload
        if last_fragment then
          (⟨none, st2.timestamp⟩, .complete b)
        else
          (⟨some b, st2.timestamp⟩, .needMore)

/-- Feed a sequence of `(timestamp, packet)` pairs to the reassembler in
order, collecting every `CompleteAccessUnit` emitted. -/
def handle_packets (st : DecState) :
    List (Nat × List Nat) → DecState × List (List Nat)
  | [] => (st, [])
  | (ts, p) :: rest =>
    let r1 := av1_handle_packet st ts p
    let r2 := handle_packets r1.1 rest
    match r1.2 with
    | .complete b => (r2.1, b :: r2.2)
    | _ => (r2.1, r2.2)

/-- The packets of one `ff_rtp_send_av1` call as delivered to the
reassembler: every packet of the access unit carries the same timestamp. -/
def delivered (ts : Nat) (ps : List Packet) : List (Nat × List Nat) :=
  ps.map (fun p => (ts, p.bytes))

/-- Drop a single leading temporal-delimiter OBU (the spec's description of
step 1 of the aggregation algorithm). -/
def drop_leading_td (au : List Obu) : List Obu :=
  match au with
  | [] => []
  | o :: rest => if o.otype = AV1_OBU_TEMPORAL_DELIMITER then rest else o :: rest

/-! ## Helper lemmas: LEB128 codec -/

theorem uleb_size_pos (v : Nat) : 1 ≤ eb_aom_uleb_size_in_bytes v := by
  rw [eb_aom_uleb_size_in_bytes]
  split <;> omega

theorem uleb_size_le_iff (k : Nat) :
    ∀ v : Nat, eb_aom_uleb_size_in_bytes v ≤ k + 1 ↔ v >>> (7 * (k + 1)) = 0 := by
  induction k with
  | zero =>
    intro v
    rw [eb_aom_uleb_size_in_bytes]
    have hp := uleb_size_pos (v >>> 7)
    by_cases h : v >>> 7 = 0
    · simp [h]
    · simp only [h, if_false]
      constructor
      · intro hle
        exfalso; omega
      · intro h0
        norm_num at h0
        try exact absurd h0 h
  | succ k ih =>
    intro v
    rw [eb_aom_uleb_size_in_bytes]
    have hsplit : 7 * (k + 1 + 1) = 7 + 7 * (k + 1) := by ring
    rw [hsplit, Nat.shiftRight_add]
    by_cases h : v >>> 7 = 0
    · simp [h, Nat.zero_shiftRight]
      try omega
    · simp only [h, if_false]
      rw [← ih (v >>> 7)]
      omega

theorem uleb_size_le_eight_iff (v : Nat) :
    eb_aom_uleb_size_in_bytes v ≤ 8 ↔ v < 2 ^ 56 := by
  have h := uleb_size_le_iff 7 v
  have h56 : 7 * (7 + 1) = 56 := by norm_num
  rw [h56] at h
  rw [h, Nat.shiftRight_eq_div_pow, Nat.div_eq_zero_iff (by positivity)]

/-- The encoding loop, run exactly `eb_aom_uleb_size_in_bytes v` times,
emits for each position `i` the `i`-th 7-bit group of `v` with the
continuation bit `0x80` set on every byte except the last. -/
theorem uleb_encode_loop_eq (v : Nat) :
    uleb_encode_loop v (eb_aom_uleb_size_in_bytes v) =
      (List.range (eb_aom_uleb_size_in_bytes v)).map
        (fun i => ((v >>> (7 * i)) % 128) |||
          (if i + 1 < eb_aom_uleb_size_in_bytes v then 0x80 else 0)) := by
  induction v using Nat.strong_induction_on with
  | _ v ih =>
    have hand : v &&& 0x7f = v % 128 := by
      have := Nat.and_pow_two_sub_one_eq_mod v 7
      norm_num at this
      exact this
    rw [eb_aom_uleb_size_in_bytes]
    by_cases h : v >>> 7 = 0
    · simp [h, uleb_encode_loop, show List.range 1 = [0] from rfl, hand]
    · have hlt : v >>> 7 < v := by
        have h1 : v ≠ 0 := by
          intro h0; subst h0; simp at h
        rw [Nat.shiftRight_eq_div_pow]
        exact Nat.div_lt_self (Nat.pos_of_ne_zero h1) (by norm_num)
      simp only [h, if_false]
      rw [Nat.add_comm 1 (eb_aom_uleb_size_in_bytes (v >>> 7))]
      show ((v &&& 0x7f) ||| (if v >>> 7 ≠ 0 then 0x80 else 0)) ::
          uleb_encode_loop (v >>> 7) (eb_aom_uleb_size_in_bytes (v >>> 7)) = _
      rw [ih (v >>> 7) hlt]
      rw [List.range_succ_eq_map, List.map_cons, List.map_map]
      have hszpos := uleb_size_pos (v >>> 7)
      congr 1
      · simp only [Nat.mul_zero, Nat.shiftRight_zero, hand, h, ne_eq,
          not_false_iff, if_true]
        congr 1
        rw [if_pos]
        omega
      · apply List.map_congr_left
        intro i _
        simp only [Function.comp]
        have h7 : 7 * (Nat.succ i) = 7 + 7 * i := by omega
        rw [h7, Nat.shiftRight_add]
        congr 1
        have hiff : (Nat.succ i + 1 < eb_aom_uleb_size_in_bytes (v >>> 7) + 1) ↔
            (i + 1 < eb_aom_uleb_size_in_bytes (v >>> 7)) := by omega
        simp only [hiff]

/-- **C8.** `eb_aom_uleb_encode value available` (with non-null output
arguments) fails exactly when the value needs more than `2^56 - 1` or the
capacity is below the number of 7-bit groups needed; on success it writes
exactly `eb_aom_uleb_size_in_bytes value` bytes, byte `i` being the `i`-th
least-significant 7-bit group with the continuation bit `0x80` ORed in on
every byte except the last. -/
theorem eb_aom_uleb_encode_characterization (v c : Nat) :
    eb_aom_uleb_encode v c =
      if 2 ^ 56 ≤ v ∨ c < eb_aom_uleb_size_in_bytes v then none
      else
        some ((List.range (eb_aom_uleb_size_in_bytes v)).map
          (fun i => ((v >>> (7 * i)) % 128) |||
            (if i + 1 < eb_aom_uleb_size_in_bytes v then 0x80 else 0))) := by
  rw [eb_aom_uleb_encode]
  have hcond : (v > kMaximumLeb128Value ∨
      eb_aom_uleb_size_in_bytes v > kMaximumLeb128Size ∨
      eb_aom_uleb_size_in_bytes v > c) ↔
      (2 ^ 56 ≤ v ∨ c < eb_aom_uleb_size_in_bytes v) := by
    have h8 := uleb_size_le_eight_iff v
    rw [kMaximumLeb128Value, kMaximumLeb128Size]
    constructor
    · rintro (h | h | h)
      · left; omega
      · left
        have : ¬ v < 2 ^ 56 := fun hc => by
          have := h8.mpr hc; omega
        omega
      · right; omega
    · rintro (h | h)
      · left; omega
      · right; right; omega
  simp only [hcond]
  split
  · rfl
  · rw [uleb_encode_loop_eq]

/-! ## Helper lemmas: the fragmentation loop -/

theorem obu_frag_loop_fuel_nil (mps f hdr : Nat) :
    obu_frag_loop_fuel mps f hdr [] = ([], []) := by
  cases f with
  | zero => rfl
  | succ g =>
    rw [obu_frag_loop_fuel, if_neg]
    intro hcc
    simp only [List.length_nil, AGGRE_HEADER_SIZE] at hcc
    omega

theorem obu_frag_loop_fuel_irrel (mps : Nat) :
    ∀ (f1 f2 hdr : Nat) (bytes : List Nat),
      bytes.length ≤ f1 → bytes.length ≤ f2 →
      obu_frag_loop_fuel mps f1 hdr bytes =
        obu_frag_loop_fuel mps f2 hdr bytes := by
  intro f1
  induction f1 with
  | zero =>
    intro f2 hdr bytes h1 h2
    have hbe : bytes = [] := List.length_eq_zero.mp (Nat.le_zero.mp h1)
    subst hbe
    rw [obu_frag_loop_fuel_nil, obu_frag_loop_fuel_nil]
  | succ g1 ih =>
    intro f2 hdr bytes h1 h2
    cases f2 with
    | zero =>
      have hbe : bytes = [] := List.length_eq_zero.mp (Nat.le_zero.mp h2)
      subst hbe
      rw [obu_frag_loop_fuel_nil, obu_frag_loop_fuel_nil]
    | succ g2 =>
      rw [obu_frag_loop_fuel, obu_frag_loop_fuel]
      by_cases hc : mps < bytes.length + AGGRE_HEADER_SIZE ∧ 2 ≤ mps
      · rw [if_pos hc, if_pos hc]
        have hdl : (frag_step mps hdr bytes).2.length ≤ g1 := by
          simp only [frag_step, List.length_drop, AGGRE_HEADER_SIZE] at *
          omega
        have hdl2 : (frag_step mps hdr bytes).2.length ≤ g2 := by
          simp only [frag_step, List.length_drop, AGGRE_HEADER_SIZE] at *
          omega
        rw [ih g2 _ _ hdl hdl2]
      · rw [if_neg hc, if_neg hc]

theorem obu_frag_loop_eq (mps hdr : Nat) (bytes : List Nat) :
    obu_frag_loop mps hdr bytes =
      if mps < bytes.length + 1 ∧ 2 ≤ mps then
        ((hdr :: bytes.take (mps - 1)) ::
           (obu_frag_loop mps (hdr ||| AV1_RTP_FLAG_Z) (bytes.drop (mps - 1))).1,
         (obu_frag_loop mps (hdr ||| AV1_RTP_FLAG_Z) (bytes.drop (mps - 1))).2)
      else ([], bytes) := by
  cases bytes with
  | nil =>
    show obu_frag_loop_fuel mps 0 hdr [] = _
    have hc : ¬(mps < ([] : List Nat).length + 1 ∧ 2 ≤ mps) := by
      simp only [List.length_nil]
      omega
    rw [if_neg hc]
    rfl
  | cons b bs =>
    show obu_frag_loop_fuel mps (bs.length + 1) hdr (b :: bs) = _
    rw [obu_frag_loop_fuel]
    have hupd : update_aggregate_hdr hdr AV1_RTP_FLAG_Z false =
        hdr ||| AV1_RTP_FLAG_Z := by
      simp [update_aggregate_hdr]
    simp only [frag_step, AGGRE_HEADER_SIZE, hupd]
    by_cases hc : mps < (b :: bs).length + 1 ∧ 2 ≤ mps
    · rw [if_pos hc, if_pos hc]
      have hlen : ((b :: bs).drop (mps - 1)).length ≤ bs.length := by
        simp only [List.length_drop, List.length_cons]
        obtain ⟨hc1, hc2⟩ := hc
        omega
      rw [obu_frag_loop,
        obu_frag_loop_fuel_irrel mps bs.length
          ((b :: bs).drop (mps - 1)).length (hdr ||| AV1_RTP_FLAG_Z)
          ((b :: bs).drop (mps - 1)) hlen le_rfl]
    · rw [if_neg hc, if_neg hc]

theorem lor_D0_Z : (0xD0 : Nat) ||| AV1_RTP_FLAG_Z = 0xD0 := by decide

theorem lor_50_Z : (0x50 : Nat) ||| AV1_RTP_FLAG_Z = 0xD0 := by decide

/-- Run with the stable interior header `0xD0`, the fragmentation loop cuts
its input into chunks of exactly `mps - 1` bytes, each emitted behind a
`0xD0` header, and leaves the rest. -/
theorem frag_loop_D0 (mps : Nat) :
    ∀ (n : Nat) (bytes : List Nat), bytes.length ≤ n →
      ∃ chunks : List (List Nat),
        (obu_frag_loop mps 0xD0 bytes).1 = chunks.map (fun c => 0xD0 :: c) ∧
        chunks.flatten ++ (obu_frag_loop mps 0xD0 bytes).2 = bytes ∧
        ∀ c ∈ chunks, c.length = mps - 1 := by
  intro n
  induction n with
  | zero =>
    intro bytes hb
    have hbe : bytes = [] := List.length_eq_zero.mp (Nat.le_zero.mp hb)
    subst hbe
    rw [obu_frag_loop_eq]
    have hcond : ¬(mps = 0 ∧ 2 ≤ mps) := by omega
    refine ⟨[], ?_, ?_, ?_⟩ <;> simp [hcond]
  | succ n ih =>
    intro bytes hb
    rw [obu_frag_loop_eq, lor_D0_Z]
    by_cases hc : mps < bytes.length + 1 ∧ 2 ≤ mps
    · obtain ⟨hc1, hc2⟩ := hc
      have hdl : (bytes.drop (mps - 1)).length ≤ n := by
        simp only [List.length_drop]; omega
      obtain ⟨chunks, hmap, hjoin, hlen⟩ := ih (bytes.drop (mps - 1)) hdl
      refine ⟨bytes.take (mps - 1) :: chunks, ?_, ?_, ?_⟩
      · simp [hc1, hc2, hmap]
      · simp only [hc1, hc2, and_self, if_true, List.flatten_cons]
        rw [List.append_assoc, hjoin, List.take_append_drop]
      · intro c hcmem
        rcases List.mem_cons.mp hcmem with h | h
        · subst h
          rw [List.length_take]
          omega
        · exact hlen c h
    · refine ⟨[], ?_, ?_, ?_⟩ <;> simp [hc]

/-- After the fragmentation loop has run (it runs at least once when the
OBU does not fit), between 1 and `mps - 1` bytes remain for the final
fragment packet. -/
theorem frag_loop_rem_bounds (mps : Nat) :
    ∀ (n : Nat) (bytes : List Nat) (hdr : Nat), bytes.length ≤ n →
      2 ≤ mps → mps < bytes.length + 1 →
      1 ≤ (obu_frag_loop mps hdr bytes).2.length ∧
      (obu_frag_loop mps hdr bytes).2.length ≤ mps - 1 := by
  intro n
  induction n with
  | zero =>
    intro bytes hdr hb h2 hlt
    omega
  | succ n ih =>
    intro bytes hdr hb h2 hlt
    rw [obu_frag_loop_eq]
    simp only [hlt, h2, and_self, if_true]
    by_cases hc : mps < (bytes.drop (mps - 1)).length + 1
    · exact ih (bytes.drop (mps - 1)) (hdr ||| AV1_RTP_FLAG_Z)
        (by simp only [List.length_drop]; omega) h2 hc
    · rw [obu_frag_loop_eq]
      have : ¬(mps < (bytes.drop (mps - 1)).length + 1 ∧ 2 ≤ mps) := by
        intro h; exact hc h.1
      simp only [this, if_false]
      simp only [List.length_drop]
      simp only [List.length_drop] at hc
      omega

/-! ## Helper lemmas: `obu_send` branch shapes -/

theorem obu_send_unfrag (mps : Nat) (fpr : Bool) (bytes : List Nat)
    (last : Bool) (hne : bytes ≠ []) (hfit : bytes.length + 1 ≤ mps) :
    obu_send mps fpr bytes last =
      ([⟨(if fpr then 0 else AV1_RTP_FLAG_N) :: bytes, last⟩], true) := by
  rw [obu_send]
  have h0 : ¬(bytes.length = 0) := by
    simpa using List.length_pos.mpr hne |>.ne'
  simp only [h0, if_false, AGGRE_HEADER_SIZE, hfit, if_true]
  cases fpr <;> simp [update_aggregate_hdr, AV1_RTP_FLAG_NONE]

theorem obu_send_frag (mps : Nat) (fpr : Bool) (bytes : List Nat)
    (last : Bool) (h2 : 2 ≤ mps) (hbig : mps < bytes.length + 1) :
    obu_send mps fpr bytes last =
      ((⟨0x50 :: bytes.take (mps - 1), false⟩ : Packet) ::
        ((obu_frag_loop mps 0xD0 (bytes.drop (mps - 1))).1.map
          (fun b => (⟨b, false⟩ : Packet))) ++
        [⟨0x80 :: (obu_frag_loop mps 0xD0 (bytes.drop (mps - 1))).2, last⟩],
       fpr) := by
  rw [obu_send]
  have h0 : ¬(bytes.length = 0) := by omega
  have hnofit : ¬(bytes.length + AGGRE_HEADER_SIZE ≤ mps) := by
    simp only [AGGRE_HEADER_SIZE]; omega
  simp only [h0, if_false, hnofit]
  have hfirst : update_aggregate_hdr 0 (AV1_RTP_FLAG_Y ||| AV1_RTP_FLAG_W1) true
      = 0x50 := by decide
  have hfinal : update_aggregate_hdr 0 AV1_RTP_FLAG_Z true = 0x80 := by decide
  rw [hfirst, hfinal, obu_frag_loop_eq, lor_50_Z]
  simp [hbig, h2]

theorem obu_send_frag_fst (mps : Nat) (fpr : Bool) (bytes : List Nat)
    (last : Bool) (h2 : 2 ≤ mps) (hbig : mps < bytes.length + 1) :
    (obu_send mps fpr bytes last).1 =
      (⟨0x50 :: bytes.take (mps - 1), false⟩ : Packet) ::
        ((obu_frag_loop mps 0xD0 (bytes.drop (mps - 1))).1.map
          (fun b => (⟨b, false⟩ : Packet))) ++
        [⟨0x80 :: (obu_frag_loop mps 0xD0 (bytes.drop (mps - 1))).2, last⟩] := by
  rw [obu_send_frag mps fpr bytes last h2 hbig]

theorem frag_loop_rem_bounds' (mps : Nat) (bytes : List Nat) (hdr : Nat)
    (h2 : 2 ≤ mps) (h1 : 1 ≤ bytes.length) :
    1 ≤ (obu_frag_loop mps hdr bytes).2.length ∧
    (obu_frag_loop mps hdr bytes).2.length ≤ mps - 1 := by
  by_cases hc : mps < bytes.length + 1
  · exact frag_loop_rem_bounds mps bytes.length bytes hdr le_rfl h2 hc
  · rw [obu_frag_loop_eq]
    have hcc : ¬(mps < bytes.length + 1 ∧ 2 ≤ mps) := fun h => hc h.1
    simp only [hcc, if_false]
    omega

/-- A single-OBU access unit whose OBU is not a temporal delimiter is sent
by a single `obu_send` call with the last-of-access-unit marker. -/
theorem send_single (mps : Nat) (fpr : Bool) (o : Obu)
    (hto : o.otype ≠ AV1_OBU_TEMPORAL_DELIMITER) :
    ff_rtp_send_av1 mps fpr [o] = obu_send mps fpr o.bytes true := by
  rw [ff_rtp_send_av1, send_loop]
  simp [hto, send_loop]

/-- **C10.** For every OBU that `obu_send` fragments (`size + 1 >
max_payload_size`, with `max_payload_size ≥ 2`), the final fragment packet
carries between 1 and `max_payload_size - 1` payload bytes: the packetizer
never emits a header-only final fragment. -/
theorem obu_send_final_fragment_nonempty (mps : Nat) (fpr : Bool)
    (bytes : List Nat) (last : Bool) (h2 : 2 ≤ mps)
    (hbig : mps < bytes.length + 1) :
    ∃ ps rem, obu_send mps fpr bytes last =
        (ps ++ [⟨0x80 :: rem, last⟩], fpr) ∧
      1 ≤ rem.length ∧ rem.length ≤ mps - 1 := by
  rw [obu_send_frag mps fpr bytes last h2 hbig]
  refine ⟨⟨0x50 :: bytes.take (mps - 1), false⟩ ::
      (obu_frag_loop mps 0xD0 (bytes.drop (mps - 1))).1.map
        (fun b => (⟨b, false⟩ : Packet)),
    (obu_frag_loop mps 0xD0 (bytes.drop (mps - 1))).2, by simp, ?_⟩
  apply frag_loop_rem_bounds' mps (bytes.drop (mps - 1)) 0xD0 h2
  simp only [List.length_drop]
  omega

/-- Witness for C10 at `max_payload_size = 2` and a 3-byte OBU. -/
theorem obu_send_final_fragment_nonempty_witness :
    ∃ ps rem, obu_send 2 false [1, 2, 3] true =
        (ps ++ [⟨0x80 :: rem, true⟩], false) ∧
      1 ≤ rem.length ∧ rem.length ≤ 2 - 1 :=
  obu_send_final_fragment_nonempty 2 false [1, 2, 3] true (by decide)
    (by decide)

/-- **C4.** For a single-OBU access unit and `max_payload_size ≥ 2`: an OBU
of length exactly `max_payload_size - 1` yields exactly one packet; an OBU
of length `max_payload_size` or more yields at least two packets, and every
packet except the last is exactly `max_payload_size` bytes long. -/
theorem single_obu_fragmentation_boundary (mps : Nat) (fpr : Bool) (o : Obu)
    (h2 : 2 ≤ mps) (hto : o.otype ≠ AV1_OBU_TEMPORAL_DELIMITER) :
    (o.bytes.length = mps - 1 → (ff_rtp_send_av1 mps fpr [o]).1.length = 1) ∧
    (mps ≤ o.bytes.length →
      2 ≤ (ff_rtp_send_av1 mps fpr [o]).1.length ∧
      ∀ p ∈ (ff_rtp_send_av1 mps fpr [o]).1.dropLast,
        p.bytes.length = mps) := by
  rw [send_single mps fpr o hto]
  constructor
  · intro hlen
    have hne : o.bytes ≠ [] := by
      intro h
      rw [h] at hlen
      simp at hlen
      omega
    rw [obu_send_unfrag mps fpr o.bytes true hne (by omega)]
    rfl
  · intro hge
    rw [obu_send_frag_fst mps fpr o.bytes true h2 (by omega)]
    obtain ⟨chunks, hmap, hjoin, hclen⟩ :=
      frag_loop_D0 mps (o.bytes.drop (mps - 1)).length (o.bytes.drop (mps - 1))
        le_rfl
    constructor
    · simp
    · rw [hmap, List.dropLast_concat]
      intro p hp
      rcases List.mem_cons.mp hp with h | h
      · subst h
        simp only [List.length_cons, List.length_take]
        omega
      · rw [List.map_map] at h
        obtain ⟨c, hcmem, hc⟩ := List.mem_map.mp h
        subst hc
        have := hclen c hcmem
        simp only [Function.comp, List.length_cons, this]
        omega

/-- Witness for C4: a 2-byte OBU at `max_payload_size = 3` yields one
packet; a 7-byte OBU at `max_payload_size = 3` yields at least two, all but
the last of exactly 3 bytes. -/
theorem single_obu_fragmentation_boundary_witness :
    (ff_rtp_send_av1 3 false [⟨6, [8, 9]⟩]).1.length = 1 ∧
    (2 ≤ (ff_rtp_send_av1 3 false [⟨6, [1, 2, 3, 4, 5, 6, 7]⟩]).1.length ∧
      ∀ p ∈ (ff_rtp_send_av1 3 false [⟨6, [1, 2, 3, 4, 5, 6, 7]⟩]).1.dropLast,
        p.bytes.length = 3) :=
  ⟨(single_obu_fragmentation_boundary 3 false ⟨6, [8, 9]⟩ (by decide)
      (by decide)).1 (by decide),
   (single_obu_fragmentation_boundary 3 false ⟨6, [1, 2, 3, 4, 5, 6, 7]⟩
      (by decide) (by decide)).2 (by decide)⟩

/-- **C9.** The packetizer contains no check of `max_payload_size` at all:
with `max_payload_size = 1` (too small for a 1-byte header plus 1 payload
byte) and a 1-byte OBU, the fragmentation-loop guard `size +
AGGRE_HEADER_SIZE > max_payload_size` holds, yet one loop iteration
(`frag_step`) emits a header-only packet and leaves the remaining input
unchanged — `obu_send` therefore loops forever emitting empty-payload
packets, and no configuration error is ever surfaced to the caller. -/
theorem mps_too_small_no_error_loops_forever :
    1 < ([5] : List Nat).length + AGGRE_HEADER_SIZE ∧
    frag_step 1 0x50 [5] = ([0x50], [5]) := by decide

/-- **C5 counterexample.** For one 3000-byte OBU at `max_payload_size =
1200`, the emitted (size, header) sequence is not the claimed
`[(1200, 0x50), (1200, 0xC0), (602, 0x80)]`. -/
theorem scenario_3000_1200_claim_false :
    (ff_rtp_send_av1 1200 false [⟨6, List.replicate 3000 7⟩]).1.map
        (fun p => (p.bytes.length, p.bytes.headI)) ≠
      [(1200, 0x50), (1200, 0xC0), (602, 0x80)] := by
  rw [send_single 1200 false ⟨6, List.replicate 3000 7⟩ (by decide)]
  rw [obu_send_frag 1200 false (List.replicate 3000 7) true (by norm_num)
    (by rw [List.length_replicate]; norm_num)]
  rw [obu_frag_loop_eq, lor_D0_Z, obu_frag_loop_eq]
  norm_num [List.length_drop, List.length_take]

/-- **C5 (amended).** For one 3000-byte OBU at `max_payload_size = 1200`
the packetizer emits exactly three packets of sizes 1200, 1200 and 603
with aggregation headers `0x50` (Y, W1), `0xD0` (Z, Y, W1: the code ORs Z
into the previous header without clearing it) and `0x80` (Z); in general
the first fragment packet carries header `0x50`, every interior fragment
packet carries Z = 1 and Y = 1, and the final fragment packet carries
Z = 1 and Y = 0 (header exactly `0x80`). -/
theorem scenario_3000_1200_amended :
    ((ff_rtp_send_av1 1200 false [⟨6, List.replicate 3000 7⟩]).1.map
        (fun p => (p.bytes.length, p.bytes.headI)) =
      [(1200, 0x50), (1200, 0xD0), (603, 0x80)]) ∧
    (∀ (mps : Nat) (fpr : Bool) (bytes : List Nat) (last : Bool),
      2 ≤ mps → mps < bytes.length + 1 →
      ∃ mid rem,
        (obu_send mps fpr bytes last).1 =
          (⟨0x50 :: bytes.take (mps - 1), false⟩ : Packet) :: mid ++
            [⟨0x80 :: rem, last⟩] ∧
        (∀ p ∈ mid, p.bytes.headI &&& AV1_RTP_FLAG_Z ≠ 0 ∧
          p.bytes.headI &&& AV1_RTP_FLAG_Y ≠ 0) ∧
        (0x80 : Nat) &&& AV1_RTP_FLAG_Z ≠ 0 ∧
        (0x80 : Nat) &&& AV1_RTP_FLAG_Y = 0) := by
  constructor
  · rw [send_single 1200 false ⟨6, List.replicate 3000 7⟩ (by decide)]
    rw [obu_send_frag 1200 false (List.replicate 3000 7) true (by norm_num)
      (by rw [List.length_replicate]; norm_num)]
    rw [obu_frag_loop_eq, lor_D0_Z, obu_frag_loop_eq]
    norm_num [List.length_drop, List.length_take]
  · intro mps fpr bytes last h2 hbig
    obtain ⟨chunks, hmap, hjoin, hclen⟩ :=
      frag_loop_D0 mps (bytes.drop (mps - 1)).length (bytes.drop (mps - 1))
        le_rfl
    refine ⟨(obu_frag_loop mps 0xD0 (bytes.drop (mps - 1))).1.map
        (fun b => (⟨b, false⟩ : Packet)),
      (obu_frag_loop mps 0xD0 (bytes.drop (mps - 1))).2,
      obu_send_frag_fst mps fpr bytes last h2 hbig, ?_, by decide, by decide⟩
    intro p hp
    rw [hmap, List.map_map] at hp
    obtain ⟨c, hcmem, hc⟩ := List.mem_map.mp hp
    subst hc
    simp only [Function.comp, List.headI]
    exact ⟨by decide, by decide⟩

/-- Witness for the general part of the amended C5 at `max_payload_size =
2` and a 3-byte OBU. -/
theorem scenario_3000_1200_amended_witness :
    ∃ mid rem,
      (obu_send 2 false [1, 2, 3] true).1 =
        (⟨0x50 :: ([1, 2, 3] : List Nat).take (2 - 1), false⟩ : Packet) ::
          mid ++ [⟨0x80 :: rem, true⟩] ∧
      (∀ p ∈ mid, p.bytes.headI &&& AV1_RTP_FLAG_Z ≠ 0 ∧
        p.bytes.headI &&& AV1_RTP_FLAG_Y ≠ 0) ∧
      (0x80 : Nat) &&& AV1_RTP_FLAG_Z ≠ 0 ∧
      (0x80 : Nat) &&& AV1_RTP_FLAG_Y = 0 :=
  scenario_3000_1200_amended.2 2 false [1, 2, 3] true (by decide) (by decide)

/-! ## Helper lemmas: the N-flag latch -/

theorem n_flag_shape_nil (fpr : Bool) : n_flag_shape fpr [] fpr := by
  constructor
  · intro h
    exact ⟨h, by simp⟩
  · intro h
    exact ⟨[], [], by simp, by simp, Or.inl ⟨rfl, h⟩⟩

theorem n_flag_shape_append {fpr f1 f2 : Bool} {ps qs : List Packet}
    (h1 : n_flag_shape fpr ps f1) (h2 : n_flag_shape f1 qs f2) :
    n_flag_shape fpr (ps ++ qs) f2 := by
  obtain ⟨h1t, h1f⟩ := h1
  obtain ⟨h2t, h2f⟩ := h2
  constructor
  · intro hf
    obtain ⟨hf1, hps⟩ := h1t hf
    obtain ⟨hf2, hqs⟩ := h2t hf1
    refine ⟨hf2, fun p hp => ?_⟩
    rcases List.mem_append.mp hp with h | h
    · exact hps p h
    · exact hqs p h
  · intro hf
    obtain ⟨pre, post, hps, hpre, hpost⟩ := h1f hf
    rcases hpost with ⟨hpe, hf1⟩ | ⟨q, rest, hpe, hq, hf1, hrest⟩
    · obtain ⟨pre2, post2, hqs2, hpre2, hpost2⟩ := h2f hf1
      refine ⟨pre ++ pre2, post2, ?_, ?_, hpost2⟩
      · rw [hps, hpe, hqs2]
        simp
      · intro p hp
        rcases List.mem_append.mp hp with h | h
        · exact hpre p h
        · exact hpre2 p h
    · obtain ⟨hf2, hqs⟩ := h2t hf1
      refine ⟨pre, q :: (rest ++ qs), ?_, hpre,
        Or.inr ⟨q, rest ++ qs, rfl, hq, hf2, fun p hp => ?_⟩⟩
      · rw [hps, hpe]
        simp
      · rcases List.mem_append.mp hp with h | h
        · exact hrest p h
        · exact hqs p h

theorem has_N_mk (b : Nat) (l : List Nat) (m : Bool) :
    has_N ⟨b :: l, m⟩ = (b &&& AV1_RTP_FLAG_N != 0) := rfl

theorem is_frag_hdr_mk (b : Nat) (l : List Nat) (m : Bool) :
    is_frag_hdr ⟨b :: l, m⟩ =
      (b &&& (AV1_RTP_FLAG_Z ||| AV1_RTP_FLAG_Y) != 0) := rfl

theorem obu_send_n_shape (mps : Nat) (fpr : Bool) (bytes : List Nat)
    (last : Bool) (h2 : 2 ≤ mps) :
    n_flag_shape fpr (obu_send mps fpr bytes last).1
      (obu_send mps fpr bytes last).2 := by
  by_cases h0 : bytes.length = 0
  · rw [obu_send]
    simp only [h0, if_true]
    exact n_flag_shape_nil fpr
  · by_cases hfit : bytes.length + 1 ≤ mps
    · have hne : bytes ≠ [] := fun h => h0 (by simp [h])
      rw [obu_send_unfrag mps fpr bytes last hne hfit]
      cases fpr
      · constructor
        · intro h
          exact absurd h (by simp)
        · intro _
          refine ⟨[], [⟨AV1_RTP_FLAG_N :: bytes, last⟩], by simp, by simp,
            Or.inr ⟨⟨AV1_RTP_FLAG_N :: bytes, last⟩, [], by simp,
              by rw [has_N_mk]; decide, rfl, by simp⟩⟩
      · constructor
        · intro _
          refine ⟨rfl, fun p hp => ?_⟩
          rw [List.mem_singleton.mp hp, has_N_mk]
          decide
        · intro h
          exact absurd h (by simp)
    · have hbig : mps < bytes.length + 1 := by omega
      have hfst := obu_send_frag_fst mps fpr bytes last h2 hbig
      have hsnd : (obu_send mps fpr bytes last).2 = fpr := by
        rw [obu_send_frag mps fpr bytes last h2 hbig]
      obtain ⟨chunks, hmap, hjoin, hclen⟩ :=
        frag_loop_D0 mps (bytes.drop (mps - 1)).length (bytes.drop (mps - 1))
          le_rfl
      have hall : ∀ p ∈ (obu_send mps fpr bytes last).1,
          is_frag_hdr p = true ∧ has_N p = false := by
        intro p hp
        rw [hfst, hmap, List.map_map] at hp
        rcases List.mem_append.mp hp with h | h
        · rcases List.mem_cons.mp h with h | h
          · rw [h]
            exact ⟨by rw [is_frag_hdr_mk]; decide, by rw [has_N_mk]; decide⟩
          · obtain ⟨c, hcmem, hc⟩ := List.mem_map.mp h
            simp only [Function.comp] at hc
            rw [← hc]
            exact ⟨by rw [is_frag_hdr_mk]; decide, by rw [has_N_mk]; decide⟩
        · rw [List.mem_singleton.mp h]
          exact ⟨by rw [is_frag_hdr_mk]; decide, by rw [has_N_mk]; decide⟩
      rw [hsnd]
      constructor
      · intro hf
        exact ⟨hf, fun p hp => (hall p hp).2⟩
      · intro hf
        exact ⟨(obu_send mps fpr bytes last).1, [], by simp, hall,
          Or.inl ⟨rfl, hf⟩⟩

theorem send_loop_n_shape (mps : Nat) (h2 : 2 ≤ mps) :
    ∀ (n : Nat) (obus : List Obu) (fpr : Bool), obus.length ≤ n →
      n_flag_shape fpr (send_loop mps obus fpr).1
        (send_loop mps obus fpr).2 := by
  intro n
  induction n with
  | zero =>
    intro obus fpr hl
    have hoe : obus = [] := List.length_eq_zero.mp (Nat.le_zero.mp hl)
    subst hoe
    exact n_flag_shape_nil fpr
  | succ n ih =>
    intro obus fpr hl
    match obus with
    | [] => exact n_flag_shape_nil fpr
    | o :: rest =>
      by_cases htd : o.otype = AV1_OBU_TEMPORAL_DELIMITER
      · match rest with
        | [] =>
          have he : send_loop mps [o] fpr = ([], fpr) := by
            simp [send_loop, htd]
          rw [he]
          exact n_flag_shape_nil fpr
        | o2 :: rest2 =>
          have he : send_loop mps (o :: o2 :: rest2) fpr =
              ((obu_send mps fpr o2.bytes rest2.isEmpty).1 ++
                (send_loop mps rest2
                  (obu_send mps fpr o2.bytes rest2.isEmpty).2).1,
               (send_loop mps rest2
                  (obu_send mps fpr o2.bytes rest2.isEmpty).2).2) := by
            simp [send_loop, htd]
          rw [he]
          exact n_flag_shape_append
            (obu_send_n_shape mps fpr o2.bytes rest2.isEmpty h2)
            (ih rest2 _ (by simp only [List.length_cons] at hl; omega))
      · have he : send_loop mps (o :: rest) fpr =
            ((obu_send mps fpr o.bytes rest.isEmpty).1 ++
              (send_loop mps rest
                (obu_send mps fpr o.bytes rest.isEmpty).2).1,
             (send_loop mps rest
                (obu_send mps fpr o.bytes rest.isEmpty).2).2) := by
          conv_lhs => rw [send_loop.eq_def]
          simp only [htd, if_false]
        rw [he]
        exact n_flag_shape_append
          (obu_send_n_shape mps fpr o.bytes rest.isEmpty h2)
          (ih rest _ (by simp only [List.length_cons] at hl; omega))

theorem send_session_n_shape (mps : Nat) (h2 : 2 ≤ mps) :
    ∀ (aus : List (List Obu)) (fpr : Bool),
      n_flag_shape fpr (send_session mps aus fpr).1
        (send_session mps aus fpr).2 := by
  intro aus
  induction aus with
  | nil =>
    intro fpr
    exact n_flag_shape_nil fpr
  | cons au rest ih =>
    intro fpr
    exact n_flag_shape_append
      (send_loop_n_shape mps h2 au.length au fpr le_rfl) (ih _)

/-- **C3 (amended).** Starting a session with the `firstPacketReceived`
latch unset, at most one emitted packet carries N = 1; the packets before
it (if it exists) are all fragment packets with N = 0, and no packet after
it carries N.  The N packet is the first packet emitted through the
unfragmented branch, not necessarily the first packet overall: when the
session's first OBU must be fragmented, its fragments carry N = 0 and the
latch fires only on a later unfragmented packet (or never). -/
theorem session_n_latch (mps : Nat) (aus : List (List Obu)) (h2 : 2 ≤ mps) :
    (send_session mps aus false).1.countP has_N ≤ 1 ∧
    ∃ pre post, (send_session mps aus false).1 = pre ++ post ∧
      (∀ p ∈ pre, is_frag_hdr p = true ∧ has_N p = false) ∧
      (post = [] ∨ ∃ q rest, post = q :: rest ∧ has_N q = true ∧
        ∀ p ∈ rest, has_N p = false) := by
  obtain ⟨_, hfalse⟩ := send_session_n_shape mps h2 aus false
  obtain ⟨pre, post, heq, hpre, hpost⟩ := hfalse rfl
  have hprecnt : pre.countP has_N = 0 := by
    rw [List.countP_eq_zero]
    intro p hp
    simp [(hpre p hp).2]
  refine ⟨?_, pre, post, heq, hpre, ?_⟩
  · rw [heq, List.countP_append, hprecnt]
    rcases hpost with ⟨hpe, _⟩ | ⟨q, rest, hpe, hq, _, hrest⟩
    · rw [hpe]
      simp
    · rw [hpe, List.countP_cons_of_pos _ _ hq]
      have : rest.countP has_N = 0 := by
        rw [List.countP_eq_zero]
        intro p hp
        simp [hrest p hp]
      omega
  · rcases hpost with ⟨hpe, _⟩ | ⟨q, rest, hpe, hq, _, hrest⟩
    · exact Or.inl hpe
    · exact Or.inr ⟨q, rest, hpe, hq, hrest⟩

/-- Witness for the amended C3: a session of two access units, a
fragmented 3-byte OBU then a small one, at `max_payload_size = 2`. -/
theorem session_n_latch_witness :
    (send_session 2 [[⟨6, [1, 2, 3]⟩], [⟨6, [4]⟩]] false).1.countP has_N ≤ 1 ∧
    ∃ pre post,
      (send_session 2 [[⟨6, [1, 2, 3]⟩], [⟨6, [4]⟩]] false).1 = pre ++ post ∧
      (∀ p ∈ pre, is_frag_hdr p = true ∧ has_N p = false) ∧
      (post = [] ∨ ∃ q rest, post = q :: rest ∧ has_N q = true ∧
        ∀ p ∈ rest, has_N p = false) :=
  session_n_latch 2 [[⟨6, [1, 2, 3]⟩], [⟨6, [4]⟩]] (by decide)

/-- **C3 counterexample.** A session whose only access unit is a single
3-byte OBU at `max_payload_size = 2`: every emitted packet is a fragment,
the unfragmented branch never runs, and no packet carries N = 1 — not
"exactly one", and in particular the first packet emitted (header `0x50`)
does not carry N. -/
theorem session_n_latch_claim_false :
    (send_session 2 [[⟨6, [1, 2, 3]⟩]] false).1.countP has_N = 0 ∧
    (send_session 2 [[⟨6, [1, 2, 3]⟩]] false).1 ≠ [] ∧
    ((send_session 2 [[⟨6, [1, 2, 3]⟩]] false).1.map has_N ≠ [true] →
      (send_session 2 [[⟨6, [1, 2, 3]⟩]] false).1.countP has_N ≠ 1) := by
  decide

/-! ## Helper lemmas: reassembler steps -/

theorem av1_discard_stale_none (t0 ts : Nat) :
    av1_discard_stale ⟨none, t0⟩ ts = ⟨none, t0⟩ := by
  simp [av1_discard_stale]

theorem av1_discard_stale_same (b : Option (List Nat)) (ts : Nat) :
    av1_discard_stale ⟨b, ts⟩ ts = ⟨b, ts⟩ := by
  simp [av1_discard_stale]

theorem av1_discard_stale_of_matching (st : DecState) (ts : Nat)
    (hst : st.buf = none ∨ st.timestamp = ts) :
    av1_discard_stale st ts = st := by
  rw [av1_discard_stale, if_neg]
  rcases hst with h | h
  · intro hcon
    rw [h] at hcon
    simp at hcon
  · intro hcon
    exact hcon.2 h

theorem av1_handle_packet_complete (st : DecState) (ts : Nat) (hdr : Nat)
    (payload : List Nat) (hne : payload ≠ [])
    (hz : hdr &&& 0x80 = 0) (hy : hdr &&& 0x40 = 0) (hw : hdr &&& 0x30 = 0) :
    av1_handle_packet st ts (hdr :: payload) =
      (av1_discard_stale st ts, .complete payload) := by
  have hpl : 0 < payload.length := List.length_pos.mpr hne
  simp only [av1_handle_packet, AGGRE_HEADER_SIZE, List.headI, List.tail_cons]
  rw [if_neg (by simp only [List.length_cons]; omega)]
  rw [if_pos ⟨by simp [hz], by simp [hy], by rw [hw]; decide⟩]

theorem av1_handle_packet_open (t0 ts : Nat) (payload : List Nat)
    (hne : payload ≠ []) :
    av1_handle_packet ⟨none, t0⟩ ts ((0x50 : Nat) :: payload) =
      (⟨some payload, ts⟩, .needMore) := by
  have hpl : 1 ≤ payload.length := List.length_pos.mpr hne
  simp +decide [av1_handle_packet, av1_discard_stale, AGGRE_HEADER_SIZE,
    hne, hpl]

theorem av1_handle_packet_interior (ts : Nat) (b payload : List Nat)
    (hne : payload ≠ []) :
    av1_handle_packet ⟨some b, ts⟩ ts ((0xD0 : Nat) :: payload) =
      (⟨some (b ++ payload), ts⟩, .needMore) := by
  have hpl : 1 ≤ payload.length := List.length_pos.mpr hne
  simp +decide [av1_handle_packet, av1_discard_stale, AGGRE_HEADER_SIZE,
    hne, hpl]

theorem av1_handle_packet_final (ts : Nat) (b payload : List Nat)
    (hne : payload ≠ []) :
    av1_handle_packet ⟨some b, ts⟩ ts ((0x80 : Nat) :: payload) =
      (⟨none, ts⟩, .complete (b ++ payload)) := by
  have hpl : 1 ≤ payload.length := List.length_pos.mpr hne
  simp +decide [av1_handle_packet, av1_discard_stale, AGGRE_HEADER_SIZE,
    hne, hpl]

theorem handle_packets_append (st : DecState) (xs ys : List (Nat × List Nat)) :
    handle_packets st (xs ++ ys) =
      ((handle_packets (handle_packets st xs).1 ys).1,
       (handle_packets st xs).2 ++
         (handle_packets (handle_packets st xs).1 ys).2) := by
  induction xs generalizing st with
  | nil => simp [handle_packets]
  | cons x rest ih =>
    obtain ⟨ts, p⟩ := x
    rw [List.cons_append, handle_packets, handle_packets]
    rw [ih]
    cases (av1_handle_packet st ts p).2 <;> simp

theorem handle_packets_fragments (ts : Nat) (c : List Nat) (hc : c ≠ []) :
    ∀ (mid : List (List Nat)) (acc : List Nat),
      (∀ p ∈ mid, p ≠ []) →
      handle_packets ⟨some acc, ts⟩
        (mid.map (fun p => (ts, (0xD0 : Nat) :: p)) ++ [(ts, 0x80 :: c)]) =
      (⟨none, ts⟩, [acc ++ mid.flatten ++ c]) := by
  intro mid
  induction mid with
  | nil =>
    intro acc _
    rw [List.map_nil, List.nil_append, handle_packets,
      av1_handle_packet_final ts acc c hc, handle_packets]
    simp
  | cons m rest ih =>
    intro acc hmem
    rw [List.map_cons, List.cons_append, handle_packets,
      av1_handle_packet_interior ts acc m (hmem m (by simp))]
    rw [ih (acc ++ m) (fun p hp => hmem p (by simp [hp]))]
    simp

/-- **C2 (amended).** When every packet of a fragmented OBU carries the
same timestamp, dropping interior fragments is not detected: delivering
the first-fragment packet (header `0x50`), any subsequence of the interior
packets (header `0xD0`), and the final-fragment packet (header `0x80`) to
a fresh reassembler returns `NeedMoreFragments` for every packet except
the last and then emits one `CompleteAccessUnit` consisting of exactly the
delivered payloads concatenated — when interior fragments were dropped,
this is a corrupted (truncated) unit, not the original OBU.  Only a
timestamp discontinuity (or a dropped last fragment) discards the
buffer. -/
theorem interior_fragment_loss_undetected (ts t0 : Nat) (a c : List Nat)
    (mid : List (List Nat)) (ha : a ≠ []) (hc : c ≠ [])
    (hmid : ∀ p ∈ mid, p ≠ []) :
    handle_packets ⟨none, t0⟩
      ((ts, (0x50 : Nat) :: a) ::
        (mid.map (fun p => (ts, (0xD0 : Nat) :: p)) ++ [(ts, 0x80 :: c)])) =
    (⟨none, ts⟩, [a ++ mid.flatten ++ c]) := by
  rw [handle_packets, av1_handle_packet_open t0 ts a ha]
  rw [handle_packets_fragments ts c hc mid a hmid]

/-- Witness for the amended C2: the 3-fragment OBU `[1]·[2]·[3]` with its
interior fragment dropped (`mid = []`, so only `[0x50,1]` and `[0x80,3]`
are delivered) yields the corrupted complete unit `[1, 3]`. -/
theorem interior_fragment_loss_undetected_witness :
    handle_packets ⟨none, 0⟩
      ((0, (0x50 : Nat) :: [1]) ::
        (([] : List (List Nat)).map (fun p => (0, (0xD0 : Nat) :: p)) ++
          [(0, 0x80 :: [3])])) =
    (⟨none, 0⟩, [[1] ++ ([] : List (List Nat)).flatten ++ [3]]) :=
  interior_fragment_loss_undetected 0 0 [1] [3] [] (by decide) (by decide)
    (by simp)

/-- **C2 counterexample.** The packetizer splits the OBU `[1, 2, 3]` at
`max_payload_size = 2` into `[0x50,1]`, `[0xD0,2]`, `[0x80,3]`; dropping
the interior packet `[0xD0,2]` and delivering the other two with one
timestamp makes the reassembler emit `CompleteAccessUnit [1, 3]` — a
corrupted unit differing from the original OBU — rather than keep
returning `NeedMoreFragments`. -/
theorem interior_fragment_loss_claim_false :
    (obu_send 2 false [1, 2, 3] true).1.map Packet.bytes =
      [[0x50, 1], [0xD0, 2], [0x80, 3]] ∧
    handle_packets ⟨none, 0⟩ [(0, [0x50, 1]), (0, [0x80, 3])] =
      (⟨none, 0⟩, [[1, 3]]) ∧
    ([1, 3] : List Nat) ≠ [1, 2, 3] := by decide

/-- **C6 (amended).** For every reassembler state, every packet of length
≥ 2 whose header has Z = 0, Y = 0 and additionally W = 0 is returned
immediately as a `CompleteAccessUnit` with the header byte stripped; the
unfragmented branch itself leaves the reassembler state untouched — the
state after the call equals `av1_discard_stale st ts`, the state after the
step-1 timestamp-discontinuity discard, hence is unchanged whenever no
buffer is open or the open buffer's timestamp matches the packet's, and
has the stale buffer dropped otherwise.  (With W ≠ 0 the packet instead
falls into the buffering path; see the counterexample.) -/
theorem unfragmented_packet_immediate (st : DecState) (ts : Nat)
    (pkt : List Nat) (hlen : 2 ≤ pkt.length)
    (hz : pkt.headI &&& 0x80 = 0) (hy : pkt.headI &&& 0x40 = 0)
    (hw : pkt.headI &&& 0x30 = 0) :
    av1_handle_packet st ts pkt =
      (av1_discard_stale st ts, .complete pkt.tail) := by
  match pkt with
  | [] => simp at hlen
  | hdr :: payload =>
    have hne : payload ≠ [] := by
      intro h
      rw [h] at hlen
      simp at hlen
    simp only [List.headI] at hz hy hw
    rw [List.tail_cons]
    exact av1_handle_packet_complete st ts hdr payload hne hz hy hw

/-- Witness for the amended C6: the unfragmented packet `[0x00, 0xAA]`
delivered once to a fresh reassembler (state unchanged) and once to a
state holding an open buffer with a different timestamp (stale buffer
dropped by the step-1 discard, payload still returned complete). -/
theorem unfragmented_packet_immediate_witness :
    (av1_handle_packet ⟨none, 0⟩ 0 [0x00, 0xAA] =
      (av1_discard_stale ⟨none, 0⟩ 0, .complete [0xAA]) ∧
     av1_discard_stale ⟨none, 0⟩ 0 = ⟨none, 0⟩) ∧
    (av1_handle_packet ⟨some [7], 1⟩ 2 [0x00, 0xAA] =
      (av1_discard_stale ⟨some [7], 1⟩ 2, .complete [0xAA]) ∧
     av1_discard_stale ⟨some [7], 1⟩ 2 = ⟨none, 1⟩) :=
  ⟨⟨unfragmented_packet_immediate ⟨none, 0⟩ 0 [0x00, 0xAA] (by decide)
      (by decide) (by decide) (by decide), by decide⟩,
   ⟨unfragmented_packet_immediate ⟨some [7], 1⟩ 2 [0x00, 0xAA] (by decide)
      (by decide) (by decide) (by decide), by decide⟩⟩

/-- **C6 counterexample.** A packet with Z = 0 and Y = 0 but W = 1
(header `0x10`) is not returned as a complete unit: with no open buffer it
is dropped with `NeedMoreFragments`, because the code's unfragmented case
additionally requires `obu_ele_num == 0`. -/
theorem unfragmented_claim_false_for_w_nonzero :
    (av1_handle_packet ⟨none, 0⟩ 0 [0x10, 0xAA]).2 = .needMore ∧
    ReasmResult.needMore ≠ .complete [0xAA] := by decide

/-- **C7 (amended).** A packet shorter than header + 1 payload byte is
rejected with `MalformedPacket` and the stream continues, but the length
check is not the first processing step: the timestamp-discontinuity
discard runs before it, so the reassembler state after the call is
`av1_discard_stale st ts` — an open buffer with a different timestamp is
discarded even by a malformed packet, and only a buffer with a matching
timestamp (or no open buffer) is preserved. -/
theorem short_packet_malformed (st : DecState) (ts : Nat) (pkt : List Nat)
    (hlen : pkt.length < 2) :
    av1_handle_packet st ts pkt = (av1_discard_stale st ts, .malformed) := by
  simp only [av1_handle_packet, AGGRE_HEADER_SIZE]
  rw [if_pos (by omega)]

/-- Witness for the amended C7: a 1-byte packet with a matching timestamp
leaves the open buffer intact. -/
theorem short_packet_malformed_witness :
    av1_handle_packet ⟨some [7], 5⟩ 5 [0] =
      (av1_discard_stale ⟨some [7], 5⟩ 5, .malformed) ∧
    av1_discard_stale ⟨some [7], 5⟩ 5 = ⟨some [7], 5⟩ :=
  ⟨short_packet_malformed ⟨some [7], 5⟩ 5 [0] (by decide), by decide⟩

/-- **C7 counterexample.** A 1-byte packet carrying timestamp 2 while the
open buffer records timestamp 1: the call returns `MalformedPacket`, but
the buffer has been discarded — the reassembler state is changed, contrary
to the claim that it is left unchanged with the open buffer preserved. -/
theorem short_packet_claim_false :
    av1_handle_packet ⟨some [5], 1⟩ 2 [0] = (⟨none, 1⟩, .malformed) ∧
    (⟨none, 1⟩ : DecState) ≠ ⟨some [5], 1⟩ := by decide

/-! ## Helper lemmas: round trip -/

theorem delivered_append (ts : Nat) (ps qs : List Packet) :
    delivered ts (ps ++ qs) = delivered ts ps ++ delivered ts qs := by
  simp [delivered]

theorem send_loop_cons (mps : Nat) (o : Obu) (rest : List Obu) (fpr : Bool)
    (htd : o.otype ≠ AV1_OBU_TEMPORAL_DELIMITER) :
    send_loop mps (o :: rest) fpr =
      ((obu_send mps fpr o.bytes rest.isEmpty).1 ++
        (send_loop mps rest (obu_send mps fpr o.bytes rest.isEmpty).2).1,
       (send_loop mps rest (obu_send mps fpr o.bytes rest.isEmpty).2).2) := by
  conv_lhs => rw [send_loop.eq_def]
  simp only [htd, if_false]

theorem send_loop_td_skip (mps : Nat) (td o2 : Obu) (rest2 : List Obu)
    (fpr : Bool) (htd : td.otype = AV1_OBU_TEMPORAL_DELIMITER)
    (ho2 : o2.otype ≠ AV1_OBU_TEMPORAL_DELIMITER) :
    send_loop mps (td :: o2 :: rest2) fpr =
      send_loop mps (o2 :: rest2) fpr := by
  conv_lhs => rw [send_loop.eq_def]
  simp only [htd, if_true]
  rw [send_loop_cons mps o2 rest2 fpr ho2]

/-- Decoding the packets `obu_send` emits for one OBU, starting with no
open buffer, emits exactly that OBU's bytes as one complete unit and ends
with no open buffer. -/
theorem handle_packets_obu (mps ts : Nat) (fpr : Bool) (bytes : List Nat)
    (last : Bool) (t0 : Nat) (h2 : 2 ≤ mps) (hne : bytes ≠ []) :
    ∃ t1, handle_packets ⟨none, t0⟩
        (delivered ts (obu_send mps fpr bytes last).1) =
      (⟨none, t1⟩, [bytes]) := by
  by_cases hfit : bytes.length + 1 ≤ mps
  · refine ⟨t0, ?_⟩
    rw [obu_send_unfrag mps fpr bytes last hne hfit]
    show handle_packets ⟨none, t0⟩
      [(ts, (if fpr then 0 else AV1_RTP_FLAG_N) :: bytes)] = _
    rw [handle_packets,
      av1_handle_packet_complete ⟨none, t0⟩ ts
        (if fpr then 0 else AV1_RTP_FLAG_N) bytes hne
        (by cases fpr <;> decide) (by cases fpr <;> decide)
        (by cases fpr <;> decide),
      av1_discard_stale_none, handle_packets]
  · have hbig : mps < bytes.length + 1 := by omega
    refine ⟨ts, ?_⟩
    rw [obu_send_frag_fst mps fpr bytes last h2 hbig]
    obtain ⟨chunks, hmap, hjoin, hclen⟩ :=
      frag_loop_D0 mps (bytes.drop (mps - 1)).length (bytes.drop (mps - 1))
        le_rfl
    have hrem : 1 ≤ (obu_frag_loop mps 0xD0 (bytes.drop (mps - 1))).2.length :=
      (frag_loop_rem_bounds' mps (bytes.drop (mps - 1)) 0xD0 h2
        (by simp only [List.length_drop]; omega)).1
    have hremne : (obu_frag_loop mps 0xD0 (bytes.drop (mps - 1))).2 ≠ [] := by
      intro h
      rw [h] at hrem
      simp at hrem
    have htakene : bytes.take (mps - 1) ≠ [] := by
      intro h
      have := congrArg List.length h
      simp only [List.length_take, List.length_nil] at this
      omega
    rw [hmap]
    have hdel : delivered ts
        ((⟨0x50 :: bytes.take (mps - 1), false⟩ : Packet) ::
          (chunks.map (fun c => (0xD0 : Nat) :: c)).map
            (fun b => (⟨b, false⟩ : Packet)) ++
          [⟨0x80 :: (obu_frag_loop mps 0xD0 (bytes.drop (mps - 1))).2, last⟩]) =
        (ts, (0x50 : Nat) :: bytes.take (mps - 1)) ::
          (chunks.map (fun c => (ts, (0xD0 : Nat) :: c)) ++
            [(ts, 0x80 :: (obu_frag_loop mps 0xD0 (bytes.drop (mps - 1))).2)]) := by
      simp [delivered, List.map_map, Function.comp]
    rw [hdel, handle_packets,
      av1_handle_packet_open t0 ts (bytes.take (mps - 1)) htakene,
      handle_packets_fragments ts
        (obu_frag_loop mps 0xD0 (bytes.drop (mps - 1))).2 hremne chunks
        (bytes.take (mps - 1))
        (fun c hcm => by
          intro h
          have := hclen c hcm
          rw [h] at this
          simp only [List.length_nil] at this
          omega)]
    rw [List.append_assoc, hjoin, List.take_append_drop]

/-- Round trip for a temporal-delimiter-free OBU sequence: decoding the
packets of `send_loop`, all delivered in order with one timestamp, yields
exactly one complete unit per OBU, in order. -/
theorem send_loop_round_trip (mps ts : Nat) (h2 : 2 ≤ mps) :
    ∀ (obus : List Obu) (fpr : Bool) (t0 : Nat),
      (∀ o ∈ obus, o.otype ≠ AV1_OBU_TEMPORAL_DELIMITER ∧ o.bytes ≠ []) →
      ∃ t1, handle_packets ⟨none, t0⟩
          (delivered ts (send_loop mps obus fpr).1) =
        (⟨none, t1⟩, obus.map Obu.bytes) := by
  intro obus
  induction obus with
  | nil =>
    intro fpr t0 _
    exact ⟨t0, rfl⟩
  | cons o rest ih =>
    intro fpr t0 hwf
    rw [send_loop_cons mps o rest fpr (hwf o (by simp)).1]
    rw [delivered_append, handle_packets_append]
    obtain ⟨t1, h1⟩ := handle_packets_obu mps ts fpr o.bytes rest.isEmpty t0
      h2 (hwf o (by simp)).2
    rw [h1]
    obtain ⟨t2, h2'⟩ := ih (obu_send mps fpr o.bytes rest.isEmpty).2 t1
      (fun o' ho' => hwf o' (by simp [ho']))
    rw [h2']
    exact ⟨t2, rfl⟩

/-- **C1 (amended).** For an access unit consisting of an optional leading
temporal-delimiter OBU followed by a nonempty sequence of non-delimiter
OBUs (each at least one byte, as the OBU parser guarantees), and any
`max_payload_size ≥ 2`, feeding every packet the packetizer emits to the
reassembler in order with one shared timestamp reproduces exactly the
access unit's OBU byte sequence with the leading temporal delimiter
removed.  (The restriction on delimiter placement is necessary: the code
skips a temporal-delimiter OBU at every loop iteration, not only a leading
one, so an access unit with an interior delimiter round-trips to a byte
sequence missing that delimiter — see the counterexample.) -/
theorem round_trip (mps ts t0 : Nat) (fpr : Bool) (au : List Obu)
    (h2 : 2 ≤ mps)
    (hau : (∀ o ∈ au, o.otype ≠ AV1_OBU_TEMPORAL_DELIMITER ∧ o.bytes ≠ []) ∨
      (∃ td rest, au = td :: rest ∧
        td.otype = AV1_OBU_TEMPORAL_DELIMITER ∧ rest ≠ [] ∧
        ∀ o ∈ rest, o.otype ≠ AV1_OBU_TEMPORAL_DELIMITER ∧ o.bytes ≠ [])) :
    (handle_packets ⟨none, t0⟩
        (delivered ts (ff_rtp_send_av1 mps fpr au).1)).2.flatten =
      ((drop_leading_td au).map Obu.bytes).flatten := by
  rcases hau with h | ⟨td, rest, hae, htd, hrne, hrest⟩
  · have hd : drop_leading_td au = au := by
      cases au with
      | nil => rfl
      | cons o r =>
        rw [drop_leading_td, if_neg (h o (by simp)).1]
    obtain ⟨t1, h1⟩ := send_loop_round_trip mps ts h2 au fpr t0 h
    rw [ff_rtp_send_av1, h1, hd]
  · subst hae
    rw [drop_leading_td, if_pos htd]
    match rest, hrne, hrest with
    | o2 :: rest2, _, hrest =>
      rw [ff_rtp_send_av1,
        send_loop_td_skip mps td o2 rest2 fpr htd (hrest o2 (by simp)).1]
      obtain ⟨t1, h1⟩ := send_loop_round_trip mps ts h2 (o2 :: rest2) fpr t0
        hrest
      rw [h1]

/-- Witness for the amended C1: one access unit of a leading temporal
delimiter and two frame OBUs, one of which must be fragmented, at
`max_payload_size = 2`. -/
theorem round_trip_witness :
    (handle_packets ⟨none, 7⟩
        (delivered 3 (ff_rtp_send_av1 2 false
          [⟨2, [9]⟩, ⟨6, [1, 2, 3]⟩, ⟨6, [4]⟩]).1)).2.flatten =
      ((drop_leading_td [⟨2, [9]⟩, ⟨6, [1, 2, 3]⟩, ⟨6, [4]⟩]).map
        Obu.bytes).flatten :=
  round_trip 2 3 7 false [⟨2, [9]⟩, ⟨6, [1, 2, 3]⟩, ⟨6, [4]⟩] (by decide)
    (Or.inr ⟨⟨2, [9]⟩, [⟨6, [1, 2, 3]⟩, ⟨6, [4]⟩], rfl, rfl, by decide,
      by decide⟩)

/-- **C1 counterexample.** An access unit with an interior temporal
delimiter: `ff_rtp_send_av1` skips the delimiter wherever it occurs, so
the round trip yields `[1, 3]` while the access unit minus its (absent)
leading delimiter is `[1, 9, 3]`. -/
theorem round_trip_claim_false :
    (handle_packets ⟨none, 0⟩
        (delivered 0 (ff_rtp_send_av1 10 false
          [⟨6, [1]⟩, ⟨2, [9]⟩, ⟨6, [3]⟩]).1)).2.flatten = [1, 3] ∧
    ((drop_leading_td [⟨6, [1]⟩, ⟨2, [9]⟩, ⟨6, [3]⟩]).map
        Obu.bytes).flatten = [1, 9, 3] ∧
    ([1, 3] : List Nat) ≠ [1, 9, 3] := by decide

end Av1Rtp
